import Mathlib

/-!
Shallow embedding of the `tql::number_theory` C++ library
(`utility.h`, `modular.h`, `sieve.h`, `prime.h`, `numeric.h`).

Conventions of the embedding:
* Machine integers of the signed value type `T` are modelled as unbounded `Int`
  (resp. `Nat` for unsigned quantities); where the C++ code performs unsigned
  arithmetic in a wider type `U` of bit width `Uw` the product is taken modulo
  `2 ^ Uw`, exactly as unsigned wraparound would.
* C++ exceptions are modelled by `Option`/`Except` return values.
* The `for` loops of the sieves are modelled as folds over the list of loop
  indices, and the range-`for` over `primes_` (with `break`) as structural
  recursion over the list.
-/

set_option maxHeartbeats 1000000
set_option maxRecDepth 100000

/-! ### utility.h -/

/-- `tql::number_theory::sign` (utility.h): 0 for zero, 1 for positive,
-1 for negative. -/
def tqlSign (x : Int) : Int :=
  if x = 0 then 0 else if x > 0 then 1 else -1

/-- `tql::number_theory::unsigned_abs` (utility.h): absolute value of a signed
integer, produced in the unsigned type (`x < 0 ? 0u - x : x`, two's
complement).  For every representable value, including the minimum one, the
result is the mathematical absolute value, i.e. `Int.natAbs`. -/
def unsigned_abs (x : Int) : Nat :=
  x.natAbs

/-- `tql::number_theory::binary_accumulate` (utility.h): folds `operation`
over the bits of `binary`, least significant first, starting from
`initial_value`. -/
def binary_accumulate {α : Type} (binary : Nat) (initial_value : α)
    (operation : Bool → α → α) : α :=
  if binary = 0 then initial_value
  else binary_accumulate (binary / 2) (operation (decide (binary % 2 ≠ 0)) initial_value)
    operation
termination_by binary
decreasing_by exact Nat.div_lt_self (Nat.pos_of_ne_zero (by assumption)) (by omega)

/-! ### modular.h -/

/-- `tql::number_theory::modular_internal::normalize` (modular.h): brings `x`
into `[0, modulus)`.  `y %= modulus` is C++ truncated remainder (`Int.tmod`). -/
def modular_internal.normalize (x modulus : Int) : Int :=
  if x < 0 ∨ x ≥ modulus then
    let y := x.tmod modulus
    if y < 0 then y + modulus else y
  else x

/-- `tql::number_theory::Modular<mod>` (modular.h): an element of the ring of
integers modulo `m`; the C++ class stores one field `value_` of the base
type. -/
structure Modular (m : Int) where
  val : Int

/-- The `Modular(type value)` constructor: `set` normalizes the value. -/
def Modular.ofInt (m : Int) (value : Int) : Modular m :=
  ⟨modular_internal.normalize value m⟩

/-- `Modular::get`. -/
def Modular.get {m : Int} (a : Modular m) : Int :=
  a.val

/-- `Modular::add`: sum with a single conditional subtraction, then the
`Modular(new_value)` constructor. -/
def Modular.add {m : Int} (a rhs : Modular m) : Modular m :=
  let new_value := a.val + rhs.val
  Modular.ofInt m (if new_value ≥ m then new_value - m else new_value)

/-- `Modular::negate`. -/
def Modular.negate {m : Int} (a : Modular m) : Modular m :=
  if a.val = 0 then a else Modular.ofInt m (m - a.val)

/-- `Modular::subtract`. -/
def Modular.subtract {m : Int} (a rhs : Modular m) : Modular m :=
  a.add rhs.negate

/-- `Modular::multiply`. -/
def Modular.multiply {m : Int} (a rhs : Modular m) : Modular m :=
  Modular.ofInt m (a.val * rhs.val)

/-- `Modular::equal`. -/
def Modular.equal {m : Int} (a rhs : Modular m) : Bool :=
  a.val == rhs.val

/-- The class invariant of `Modular`: `value_` is always in `[0, modulus)`. -/
def Modular.Inv {m : Int} (a : Modular m) : Prop :=
  0 ≤ a.val ∧ a.val < m

instance {m : Int} (a : Modular m) : Decidable a.Inv := by
  unfold Modular.Inv; infer_instance

/-- Halving recursion for `bit_width`, driven by a structural fuel so that it
evaluates inside the kernel; `fuel ≥ n` always suffices. -/
def bitWidthAux : Nat → Nat → Nat
  | 0, _ => 0
  | fuel + 1, n => if n = 0 then 0 else bitWidthAux fuel (n / 2) + 1

/-- `std::bit_width` of a `Nat`: number of binary digits (0 for 0). -/
def bit_width (n : Nat) : Nat :=
  bitWidthAux n n

/-! ### sieve.h — `EulerSieve<T, U>`, exclusive limit

`Uw` is the bit width (`std::numeric_limits<U>::digits`) of the unsigned
multiplication type `U`. -/

/-- The mutable state built by the sieve constructors: the
`min_prime_factor_` vector (a `std::vector<T>` modelled as a list, read with
`List.getD · · 0` and written with `List.set`, both of which are exactly
in-bounds array access here) and the `primes_` vector. -/
structure SieveState where
  mpf : List Nat
  primes : List Nat

/-- Inner range-`for` of the `EulerSieve` constructor in sieve.h: walks
`primes_`, breaking when `prime > min_prime_factor_[num]` or when the product
`x` (computed in `U`, hence modulo `2 ^ Uw`) reaches the limit; otherwise
writes `min_prime_factor_[x] = prime`. -/
def markStepE (Uw M num : Nat) : List Nat → List Nat → List Nat
  | [], mpf => mpf
  | prime :: rest, mpf =>
    if prime > mpf.getD num 0 then mpf
    else
      let x := prime * num % 2 ^ Uw
      if x ≥ M then mpf
      else markStepE Uw M num rest (mpf.set x prime)

/-- One iteration of the outer loop of the sieve.h constructor at index
`num`: record `num` as prime when unmarked, then run the inner loop. -/
def sieveStepE (Uw M : Nat) (st : SieveState) (num : Nat) : SieveState :=
  let st1 := if st.mpf.getD num 0 = 0 then
      { mpf := st.mpf.set num num, primes := st.primes ++ [num] }
    else st
  { mpf := markStepE Uw M num st1.primes st1.mpf, primes := st1.primes }

/-- `tql::number_theory::EulerSieve<T, U>` (sieve.h): the data held after
construction. -/
structure EulerSieveE where
  limit : Nat
  mpf : List Nat
  primes : List Nat

/-- The sieve.h `EulerSieve` constructor: the `min_prime_factor_` member is
initialized to `limit` zeros, the overflow check runs
(`bit_width(limit) * 2 > digits(U)` throws, modelled as `none`), then the
outer loop `for (num = 2; num < limit; ++num)` runs as a fold over
`[2, limit)`. -/
def eulerSieveE (Uw L : Nat) : Option EulerSieveE :=
  if bit_width L * 2 > Uw then none
  else
    let st := (List.range' 2 (L - 2)).foldl (sieveStepE Uw L)
      { mpf := List.replicate L 0, primes := [] }
    some { limit := L, mpf := st.mpf, primes := st.primes }

/-- The two exception classes thrown by `min_prime_factor`. -/
inductive SieveErr where
  | domainError
  | outOfRange
deriving DecidableEq

/-- `EulerSieve::min_prime_factor` (sieve.h): domain error for
`abs(number) <= 1`, out-of-range error for `abs(number) >= limit`, otherwise
the table entry at `abs(number)`. -/
def EulerSieveE.min_prime_factor (s : EulerSieveE) (number : Int) :
    Except SieveErr Nat :=
  let abs_num := unsigned_abs number
  if abs_num ≤ 1 then .error .domainError
  else if abs_num ≥ s.limit then .error .outOfRange
  else .ok (s.mpf.getD abs_num 0)

/-! ### prime.h — `EulerSieve<T>`, inclusive limit, `MultType = uint64_t` -/

/-- Inner range-`for` of the `EulerSieve` constructor in prime.h: identical to
the sieve.h one except that the product is compared with `x > limit` and is
always computed in `uint64_t`. -/
def markStepI (L num : Nat) : List Nat → List Nat → List Nat
  | [], mpf => mpf
  | prime :: rest, mpf =>
    if prime > mpf.getD num 0 then mpf
    else
      let x := prime * num % 2 ^ 64
      if x > L then mpf
      else markStepI L num rest (mpf.set x prime)

/-- One iteration of the outer loop of the prime.h constructor. -/
def sieveStepI (L : Nat) (st : SieveState) (num : Nat) : SieveState :=
  let st1 := if st.mpf.getD num 0 = 0 then
      { mpf := st.mpf.set num num, primes := st.primes ++ [num] }
    else st
  { mpf := markStepI L num st1.primes st1.mpf, primes := st1.primes }

/-- `tql::number_theory::EulerSieve<T>` (prime.h): the data held after
construction. -/
structure EulerSieveI where
  limit : Nat
  mpf : List Nat
  primes : List Nat

/-- The prime.h `EulerSieve` constructor: the `min_prime_factor_` member is
initialized to `limit + 1` zeros, `check_overflow` runs
(`bit_width(limit) * 2 > 64` throws, modelled as `none`), then the outer loop
`for (num = 2; num <= limit; ++num)` runs as a fold over `[2, limit]`. -/
def eulerSieveI (L : Nat) : Option EulerSieveI :=
  if bit_width L * 2 > 64 then none
  else
    let st := (List.range' 2 (L - 1)).foldl (sieveStepI L)
      { mpf := List.replicate (L + 1) 0, primes := [] }
    some { limit := L, mpf := st.mpf, primes := st.primes }

/-- `EulerSieve::min_prime_factor` (prime.h): same as the sieve.h revision but
with the inclusive comparison `abs(number) > limit` for the range check. -/
def EulerSieveI.min_prime_factor (s : EulerSieveI) (number : Int) :
    Except SieveErr Nat :=
  let abs_num := unsigned_abs number
  if abs_num ≤ 1 then .error .domainError
  else if abs_num > s.limit then .error .outOfRange
  else .ok (s.mpf.getD abs_num 0)

/-! ### Proof-side exact kernel for the Euler sieve

Both constructors, once their overflow check has passed, compute products that
never wrap.  `markStepX`/`sieveStepX` are the same loops with exact `Nat`
multiplication and exclusive limit `M`; both embeddings are reduced to this
kernel and its correctness is proved once. -/

/-- Exact-arithmetic version of the inner loop, exclusive limit `M`. -/
def markStepX (M num : Nat) : List Nat → List Nat → List Nat
  | [], mpf => mpf
  | prime :: rest, mpf =>
    if prime > mpf.getD num 0 then mpf
    else
      let x := prime * num
      if x ≥ M then mpf
      else markStepX M num rest (mpf.set x prime)

/-- Exact-arithmetic version of one outer-loop iteration. -/
def sieveStepX (M : Nat) (st : SieveState) (num : Nat) : SieveState :=
  let st1 := if st.mpf.getD num 0 = 0 then
      { mpf := st.mpf.set num num, primes := st.primes ++ [num] }
    else st
  { mpf := markStepX M num st1.primes st1.mpf, primes := st1.primes }

/-- The exact kernel run over the first `k` loop indices `2, 3, …, k + 1`,
starting from the table `init`. -/
def sieveRunX (M k : Nat) (init : List Nat) : SieveState :=
  (List.range' 2 k).foldl (sieveStepX M) { mpf := init, primes := [] }

/-- The primes below `m`, ascending, characterized through `Nat.minFac` the
way the sieve recognizes them. -/
def primesBelow (m : Nat) : List Nat :=
  (List.range m).filter (fun n => decide (2 ≤ n) && decide (n.minFac = n))

/-- Intended contents of the `min_prime_factor_` table (exclusive limit `M`)
after the outer loop has processed all indices in `[2, m)`: an index `n` holds
its least prime factor as soon as either `n` itself has been processed or `n`
is composite and its cofactor `n / minFac n` has been processed; otherwise it
still holds 0. -/
def mpfSpec (M m n : Nat) : Nat :=
  if 2 ≤ n ∧ n < M ∧ (n < m ∨ (¬ n.Prime ∧ n / n.minFac < m)) then n.minFac else 0

/-- Table contents in the middle of the iteration for index `m`: the entry of
`m` itself has just been finalized, the inner marking loop has not run yet. -/
def mpfMid (M m n : Nat) : Nat :=
  if 2 ≤ n ∧ n < M ∧ (n ≤ m ∨ (¬ n.Prime ∧ n / n.minFac < m)) then n.minFac else 0

/-! ### numeric.h -/

/-- The exception thrown by `numeric_cast` (utility.h): `std::range_error`. -/
inductive RangeErr where
  | rangeError
deriving DecidableEq

/-- `tql::number_theory::numeric_cast<Signed_T>` (utility.h) applied to a
value of the unsigned type, as `exgcd` uses it: throws `range_error` when
`std::in_range<Signed_T>(number)` fails, else returns
`static_cast<Signed_T>(number)`.  `tw` is `numeric_limits<Signed_T>::digits`
(e.g. 31 for `int`), so the maximum of `Signed_T` is `2 ^ tw - 1`; the source
value is unsigned, hence only the upper bound can fail, and on success the
value is returned unchanged (`numeric_cast_ok_eq` below). -/
def numeric_cast (tw : Nat) (number : Nat) : Except RangeErr Nat :=
  if 2 ^ tw - 1 < number then .error .rangeError else .ok number

/-- `tql::number_theory::exgcd` loop (numeric.h): the Euclidean iteration on
the unsigned magnitudes `ta, tb` carrying Bézout coefficient rows
`(xa, ya)` and `(xb, yb)`.  Each round computes
`Signed_T q = numeric_cast<Signed_T>(ta / tb)` (numeric.h:44), which throws a
range error when the quotient exceeds the signed maximum; since
`numeric_cast` returns its argument unchanged on success, the quotient is
bound once and the cast acts as the range gate. -/
def exgcdLoop (tw : Nat) (ta tb : Nat) (xa ya xb yb : Int) :
    Except RangeErr (Int × Int) :=
  if h : tb = 0 then .ok (xa, ya)
  else
    let q : Nat := ta / tb
    match numeric_cast tw q with
    | .error e => .error e
    | .ok _ =>
      let tc := ta - q * tb
      let xc := xa - (q : Int) * xb
      let yc := ya - (q : Int) * yb
      exgcdLoop tw tb tc xb yb xc yc
termination_by tb
decreasing_by
  have h1 : ta / tb * tb + ta % tb = ta := Nat.div_add_mod' ta tb
  have h2 : ta % tb < tb := Nat.mod_lt ta (Nat.pos_of_ne_zero h)
  omega

/-- `tql::number_theory::exgcd` (numeric.h): extended Euclid over signed
inputs of a type whose signed form has `tw` value bits; runs the loop on
`unsigned_abs a`, `unsigned_abs b` and restores the signs at the end, or
propagates the `range_error` of the internal quotient cast. -/
def exgcd (tw : Nat) (a b : Int) : Except RangeErr (Int × Int) :=
  match exgcdLoop tw (unsigned_abs a) (unsigned_abs b) 1 0 0 1 with
  | .error e => .error e
  | .ok p => .ok (tqlSign a * p.1, tqlSign b * p.2)

/-- `tql::number_theory::pow` for an integer exponent, instantiated the way
`iroot` uses it: base of unsigned 64-bit type (arithmetic modulo `2 ^ 64`),
binary exponentiation via `binary_accumulate`. -/
def tqlPowU64 (base : Nat) (exponent : Int) : Nat :=
  let abs_exp := unsigned_abs exponent
  let state := binary_accumulate abs_exp ((1, base) : Nat × Nat)
    (fun bit st =>
      let result := if bit then st.1 * st.2 % 2 ^ 64 else st.1
      (result, st.2 * st.2 % 2 ^ 64))
  let result := state.1
  if exponent < 0 then 1 / result else result

/-- The overflow-avoidance table of `iroot` (numeric.h): for each exponent
`n < 64`, the largest base whose `n`-th power fits in `uint64_t`. -/
def y_limits : List Nat :=
  [0, 0, 4294967295, 2642245, 65535, 7131, 1625, 565, 255, 138, 84, 56, 40,
   30, 23, 19, 15, 13, 11, 10, 9, 8, 7, 6, 6, 5,
   5, 5, 4, 4, 4, 4, 3, 3, 3, 3, 3, 3, 3,
   3, 3, 2, 2, 2, 2, 2, 2, 2, 2, 2, 2, 2,
   2, 2, 2, 2, 2, 2, 2, 2, 2, 2, 2, 2]

/-- Binary-search loop of `iroot`: maximal `y` in `[y_min, y_max)` with
`y ^ n ≤ abs_x`, probing with `std::midpoint`. -/
def irootLoop (n : Int) (abs_x : Nat) (y_min y_max : Nat) : Nat :=
  if y_max - y_min > 1 then
    let y_mid := y_min + (y_max - y_min) / 2
    if tqlPowU64 y_mid n > abs_x then irootLoop n abs_x y_min y_mid
    else irootLoop n abs_x y_mid y_max
  else y_min
termination_by y_max - y_min
decreasing_by
  all_goals omega

/-- The two exception classes thrown by `iroot`. -/
inductive IrootErr where
  | invalidArgument
  | domainError
deriving DecidableEq

/-- `tql::number_theory::iroot` (numeric.h): integer `n`-th root of `x`
rounded toward zero; `invalid_argument` for `n < 0`, `domain_error` for
`n == 0` and for even roots of negatives. -/
def iroot (x n : Int) : Except IrootErr Int :=
  if n < 0 then .error .invalidArgument
  else if n = 0 then .error .domainError
  else if x < 0 ∧ n % 2 = 0 then .error .domainError
  else if n = 1 then .ok x
  else
    let y_limit : Nat := if n ≥ 64 then 1 else y_limits.getD n.toNat 0
    let abs_x := unsigned_abs x
    let y_max := min abs_x y_limit + 1
    .ok (tqlSign x * (irootLoop n abs_x 0 y_max : Int))

/-! ### Accessors used by closed concrete statements -/

/-- Projection of an optional sieve.h sieve to its prime list (empty when
construction failed). -/
def primesOfE (o : Option EulerSieveE) : List Nat :=
  match o with
  | none => []
  | some s => s.primes

/-- Projection of an optional sieve.h sieve to one `min_prime_factor_`
entry. -/
def mpfOfE (o : Option EulerSieveE) (n : Nat) : Nat :=
  match o with
  | none => 0
  | some s => s.mpf.getD n 0

/-- Result of a `min_prime_factor` query on an optional sieve.h sieve. -/
def queryE (o : Option EulerSieveE) (number : Int) : Except SieveErr Nat :=
  match o with
  | none => .error .domainError
  | some s => s.min_prime_factor number

/-- Projection of an optional prime.h sieve to its prime list. -/
def primesOfI (o : Option EulerSieveI) : List Nat :=
  match o with
  | none => []
  | some s => s.primes

/-- Projection of an optional prime.h sieve to one `min_prime_factor_`
entry. -/
def mpfOfI (o : Option EulerSieveI) (n : Nat) : Nat :=
  match o with
  | none => 0
  | some s => s.mpf.getD n 0

/-- Result of a `min_prime_factor` query on an optional prime.h sieve. -/
def queryI (o : Option EulerSieveI) (number : Int) : Except SieveErr Nat :=
  match o with
  | none => .error .domainError
  | some s => s.min_prime_factor number

/-! ## Theorems

Basic facts about the table representation. -/

theorem tblGet_set_self {l : List Nat} {i v : Nat} (h : i < l.length) :
    (l.set i v).getD i 0 = v := by
  simp [List.getD_eq_getElem?_getD, List.getElem?_set_self, h]

theorem tblGet_set_ne {l : List Nat} {i j v : Nat} (h : i ≠ j) :
    (l.set i v).getD j 0 = l.getD j 0 := by
  simp [List.getD_eq_getElem?_getD, List.getElem?_set_ne, h]

theorem tblGet_replicate {n i : Nat} : (List.replicate n (0 : Nat)).getD i 0 = 0 := by
  simp only [List.getD_eq_getElem?_getD, List.getElem?_replicate]
  split <;> rfl

theorem bitWidthAux_lt (fuel : Nat) : ∀ n, n ≤ fuel → n < 2 ^ bitWidthAux fuel n := by
  induction fuel with
  | zero => intro n hn; interval_cases n; simp [bitWidthAux]
  | succ fuel ih =>
    intro n hn
    by_cases h0 : n = 0
    · simp [bitWidthAux, h0]
    · have hhalf := ih (n / 2) (by omega)
      have : bitWidthAux (fuel + 1) n = bitWidthAux fuel (n / 2) + 1 := by
        simp [bitWidthAux, h0]
      rw [this, pow_succ]
      omega

theorem lt_two_pow_bit_width (n : Nat) : n < 2 ^ bit_width n :=
  bitWidthAux_lt n n le_rfl

/-! ### Facts about `primesBelow` -/

theorem mem_primesBelow {p m : Nat} : p ∈ primesBelow m ↔ p < m ∧ p.Prime := by
  simp only [primesBelow, List.mem_filter, List.mem_range, Bool.and_eq_true,
    decide_eq_true_iff]
  rw [Nat.prime_def_minFac]

theorem primesBelow_pairwise (m : Nat) : (primesBelow m).Pairwise (· < ·) :=
  List.Pairwise.filter _ (List.pairwise_lt_range m)

theorem primesBelow_succ_prime {m : Nat} (hp : m.Prime) :
    primesBelow (m + 1) = primesBelow m ++ [m] := by
  have h := Nat.prime_def_minFac.mp hp
  simp [primesBelow, List.range_succ, List.filter_append, h.1, h.2]

theorem primesBelow_succ_comp {m : Nat} (hp : ¬ m.Prime) :
    primesBelow (m + 1) = primesBelow m := by
  have h : (decide (2 ≤ m) && decide (m.minFac = m)) = false := by
    rcases Decidable.em (2 ≤ m) with h2 | h2
    · have : m.minFac ≠ m := fun he => hp (Nat.prime_def_minFac.mpr ⟨h2, he⟩)
      simp [this]
    · simp [h2]
  simp [primesBelow, List.range_succ, List.filter_append, h]

theorem primesBelow_of_le_two {m : Nat} (h : m ≤ 2) : primesBelow m = [] := by
  interval_cases m <;> simp [primesBelow, List.range_succ]

/-! ### Facts about least prime factors -/

theorem minFac_of_mul {p m : Nat} (hp : p.Prime) (hm : 2 ≤ m) (hpm : p ≤ m.minFac) :
    (p * m).minFac = p := by
  have hne : p * m ≠ 1 := by
    have := hp.two_le
    exact Nat.ne_of_gt (by nlinarith)
  have hq : (p * m).minFac.Prime := Nat.minFac_prime hne
  apply le_antisymm
  · exact Nat.minFac_le_of_dvd hp.two_le ⟨m, rfl⟩
  · rcases (hq.dvd_mul).mp (Nat.minFac_dvd (p * m)) with h | h
    · exact le_of_eq ((Nat.prime_dvd_prime_iff_eq hq hp).mp h).symm
    · exact le_trans hpm (Nat.minFac_le_of_dvd hq.two_le h)

theorem cofactor_facts {n : Nat} (h2 : 2 ≤ n) (hc : ¬ n.Prime) :
    2 ≤ n / n.minFac ∧ n / n.minFac < n ∧ n.minFac * (n / n.minFac) = n ∧
      n.minFac ≤ (n / n.minFac).minFac := by
  have hne1 : n ≠ 1 := by omega
  have hprime := Nat.minFac_prime hne1
  have hdvd : n.minFac ∣ n := Nat.minFac_dvd n
  have hmul : n.minFac * (n / n.minFac) = n := Nat.mul_div_cancel' hdvd
  have hcof2 : 2 ≤ n / n.minFac := by
    by_contra hlt
    push_neg at hlt
    have h01 : n / n.minFac = 0 ∨ n / n.minFac = 1 := by
      generalize n / n.minFac = q at hlt ⊢
      omega
    rcases h01 with h0 | h1
    · rw [h0, Nat.mul_zero] at hmul; omega
    · rw [h1, Nat.mul_one] at hmul
      exact hc (Nat.prime_def_minFac.mpr ⟨h2, hmul⟩)
  have hlt : n / n.minFac < n := Nat.div_lt_self (by omega) hprime.one_lt
  refine ⟨hcof2, hlt, hmul, ?_⟩
  have hcdvd : n / n.minFac ∣ n := Nat.div_dvd_of_dvd hdvd
  have : (n / n.minFac).minFac ∣ n :=
    dvd_trans (Nat.minFac_dvd _) hcdvd
  exact Nat.minFac_le_of_dvd (Nat.minFac_prime (by omega)).two_le this

/-! ### Characterization of the exact inner marking loop -/

theorem markStepX_length (M num : Nat) :
    ∀ (ps tbl : List Nat), (markStepX M num ps tbl).length = tbl.length := by
  intro ps
  induction ps with
  | nil => intro tbl; simp [markStepX]
  | cons p rest ih =>
    intro tbl
    simp only [markStepX]
    split
    · rfl
    · split
      · rfl
      · rw [ih, List.length_set]

theorem markStepX_eq (M m : Nat) (hm : 2 ≤ m) :
    ∀ (ps tbl : List Nat),
      (∀ p ∈ ps, p.Prime) → ps.Pairwise (· < ·) →
      tbl.length = M →
      tbl.getD m 0 = m.minFac →
      ∀ n, (markStepX M m ps tbl).getD n 0 =
        if ∃ p, p ∈ ps ∧ p ≤ m.minFac ∧ p * m < M ∧ n = p * m then n.minFac
        else tbl.getD n 0 := by
  intro ps
  induction ps with
  | nil =>
    intro tbl _ _ _ _ n
    simp [markStepX]
  | cons p rest ih =>
    intro tbl hprime hpair hlen hread n
    have hp : p.Prime := hprime p (List.mem_cons_self p rest)
    simp only [markStepX, hread]
    by_cases hgt : p > m.minFac
    · rw [if_pos hgt, if_neg]
      rintro ⟨q, hqmem, hqle, -, -⟩
      rcases List.mem_cons.mp hqmem with rfl | hqrest
      · omega
      · have : p < q := (List.pairwise_cons.mp hpair).1 q hqrest
        omega
    · rw [if_neg hgt]
      push_neg at hgt
      by_cases hxM : p * m ≥ M
      · rw [if_pos hxM, if_neg]
        rintro ⟨q, hqmem, -, hqM, -⟩
        have hpq : p ≤ q := by
          rcases List.mem_cons.mp hqmem with rfl | hqrest
          · exact le_refl q
          · exact le_of_lt ((List.pairwise_cons.mp hpair).1 q hqrest)
        have : p * m ≤ q * m := Nat.mul_le_mul_right m hpq
        omega
      · push_neg at hxM
        rw [if_neg (by omega)]
        have hxm : p * m ≠ m := by
          have : 2 * m ≤ p * m := Nat.mul_le_mul_right m hp.two_le
          omega
        have hih := ih (tbl.set (p * m) p)
          (fun q hq => hprime q (List.mem_cons_of_mem p hq))
          (List.pairwise_cons.mp hpair).2
          (by rw [List.length_set, hlen])
          (by rw [tblGet_set_ne hxm, hread]) n
        rw [hih]
        by_cases hn : n = p * m
        · subst hn
          have hRHS : ∃ q, q ∈ p :: rest ∧ q ≤ m.minFac ∧ q * m < M ∧ p * m = q * m :=
            ⟨p, List.mem_cons_self p rest, hgt, hxM, rfl⟩
          by_cases htail : ∃ q, q ∈ rest ∧ q ≤ m.minFac ∧ q * m < M ∧ p * m = q * m
          · rw [if_pos htail, if_pos hRHS]
          · rw [if_neg htail, if_pos hRHS, tblGet_set_self (by rw [hlen]; exact hxM)]
            exact (minFac_of_mul hp hm hgt).symm
        · rw [tblGet_set_ne fun h => hn h.symm]
          have hiff : (∃ q, q ∈ rest ∧ q ≤ m.minFac ∧ q * m < M ∧ n = q * m) ↔
              (∃ q, q ∈ p :: rest ∧ q ≤ m.minFac ∧ q * m < M ∧ n = q * m) := by
            constructor
            · rintro ⟨q, hqmem, h1, h2, h3⟩
              exact ⟨q, List.mem_cons_of_mem p hqmem, h1, h2, h3⟩
            · rintro ⟨q, hqmem, h1, h2, h3⟩
              rcases List.mem_cons.mp hqmem with rfl | hqrest
              · exact absurd h3 hn
              · exact ⟨q, hqrest, h1, h2, h3⟩
          exact if_congr hiff rfl rfl

/-! ### The outer-loop invariant of the exact kernel -/

theorem mpfSpec_self {M m : Nat} (hm : 2 ≤ m) (hmM : m < M) :
    mpfSpec M m m = if m.Prime then 0 else m.minFac := by
  unfold mpfSpec
  rcases Decidable.em m.Prime with hp | hp
  · rw [if_pos hp, if_neg]
    rintro ⟨-, -, h | ⟨hnp, -⟩⟩
    · omega
    · exact hnp hp
  · rw [if_neg hp, if_pos]
    exact ⟨hm, hmM, Or.inr ⟨hp, (cofactor_facts hm hp).2.1⟩⟩

theorem mpfMid_of_ne {M m n : Nat} (hn : n ≠ m) : mpfMid M m n = mpfSpec M m n := by
  unfold mpfMid mpfSpec
  have : (n ≤ m ∨ (¬ n.Prime ∧ n / n.minFac < m)) ↔
      (n < m ∨ (¬ n.Prime ∧ n / n.minFac < m)) := by
    constructor
    · rintro (h | h)
      · exact Or.inl (lt_of_le_of_ne h hn)
      · exact Or.inr h
    · rintro (h | h)
      · exact Or.inl (le_of_lt h)
      · exact Or.inr h
  exact if_congr (by rw [this]) rfl rfl

theorem mpfMid_self {M m : Nat} (hm : 2 ≤ m) (hmM : m < M) :
    mpfMid M m m = m.minFac := by
  unfold mpfMid
  exact if_pos ⟨hm, hmM, Or.inl le_rfl⟩

theorem markSpec_pos {M m : Nat} (hm : 2 ≤ m)
    (hex : ∃ p, p ∈ primesBelow (m + 1) ∧ p ≤ m.minFac ∧ p * m < M ∧ n = p * m) :
    mpfSpec M (m + 1) n = n.minFac := by
  · obtain ⟨p, hpmem, hple, hpM, rfl⟩ := hex
    have hp : p.Prime := (mem_primesBelow.mp hpmem).2
    have hp2 : 2 ≤ p := hp.two_le
    have h2n : 2 ≤ p * m := by nlinarith
    have hnp : ¬ (p * m).Prime := by
      intro hpr
      rcases (Nat.Prime.eq_one_or_self_of_dvd hpr p ⟨m, rfl⟩) with h1 | hself
      · omega
      · have : m = 1 := by
          have hppos : 0 < p := by omega
          have : p * m = p * 1 := by omega
          exact Nat.eq_of_mul_eq_mul_left hppos this
        omega
    have hmf : (p * m).minFac = p := minFac_of_mul hp hm hple
    have hcof : p * m / (p * m).minFac = m := by
      rw [hmf]
      exact Nat.mul_div_cancel_left m (by omega)
    unfold mpfSpec
    rw [if_pos ⟨h2n, hpM, Or.inr ⟨hnp, by omega⟩⟩]

theorem markSpec_neg {M m : Nat} (hm : 2 ≤ m) (hmM : m < M)
    (hex : ¬ ∃ p, p ∈ primesBelow (m + 1) ∧ p ≤ m.minFac ∧ p * m < M ∧ n = p * m) :
    mpfSpec M (m + 1) n = mpfMid M m n := by
  · unfold mpfMid mpfSpec
    rcases Decidable.em (2 ≤ n ∧ n < M ∧ (n ≤ m ∨ (¬ n.Prime ∧ n / n.minFac < m)))
      with hA | hA
    · rw [if_pos hA, if_pos]
      obtain ⟨h1, h2, h3⟩ := hA
      refine ⟨h1, h2, ?_⟩
      rcases h3 with h | ⟨hnp, hc⟩
      · exact Or.inl (by omega)
      · exact Or.inr ⟨hnp, by omega⟩
    · rw [if_neg hA, if_neg]
      rintro ⟨h2n, hnM, hB⟩
      have hnm : ¬ n ≤ m := by
        intro hle
        exact hA ⟨h2n, hnM, Or.inl hle⟩
      rcases hB with h | ⟨hnp, hcof⟩
      · omega
      · have hcge : ¬ n / n.minFac < m := fun hlt => hA ⟨h2n, hnM, Or.inr ⟨hnp, hlt⟩⟩
        have hceq : n / n.minFac = m := by
          generalize n / n.minFac = c at hcof hcge ⊢
          omega
        obtain ⟨hc2, hclt, hcmul, hcle⟩ := cofactor_facts h2n hnp
        have hcm : n.minFac * m = n := by rw [← hceq]; exact hcmul
        have hple : n.minFac ≤ m.minFac := by
          have h5 : (n / n.minFac).minFac = m.minFac := by rw [hceq]
          exact hcle.trans (le_of_eq h5)
        apply hex
        refine ⟨n.minFac, ?_, hple, ?_, ?_⟩
        · rw [mem_primesBelow]
          have hle : n.minFac ≤ m := hple.trans (Nat.minFac_le (show 0 < m by omega))
          exact ⟨by omega, Nat.minFac_prime (by omega)⟩
        · omega
        · omega

theorem sieveStepX_inv (M m : Nat) (hm : 2 ≤ m) (hmM : m < M) (st : SieveState)
    (hlen : st.mpf.length = M)
    (hmpf : ∀ n, st.mpf.getD n 0 = mpfSpec M m n)
    (hpr : st.primes = primesBelow m) :
    (sieveStepX M st m).mpf.length = M ∧
    (∀ n, (sieveStepX M st m).mpf.getD n 0 = mpfSpec M (m + 1) n) ∧
    (sieveStepX M st m).primes = primesBelow (m + 1) := by
  have hread : st.mpf.getD m 0 = if m.Prime then 0 else m.minFac := by
    rw [hmpf m, mpfSpec_self hm hmM]
  by_cases hp : m.Prime
  · have hb : st.mpf.getD m 0 = 0 := by rw [hread, if_pos hp]
    have hstep : sieveStepX M st m =
        { mpf := markStepX M m (st.primes ++ [m]) (st.mpf.set m m)
          primes := st.primes ++ [m] } := by
      unfold sieveStepX
      rw [if_pos hb]
    have hpr1 : st.primes ++ [m] = primesBelow (m + 1) := by
      rw [hpr, primesBelow_succ_prime hp]
    have hlen1 : (st.mpf.set m m).length = M := by rw [List.length_set, hlen]
    have hmid : ∀ n, (st.mpf.set m m).getD n 0 = mpfMid M m n := by
      intro n
      by_cases hn : n = m
      · subst hn
        rw [tblGet_set_self (by rw [hlen]; exact hmM), mpfMid_self hm hmM,
          Nat.Prime.minFac_eq hp]
      · rw [tblGet_set_ne (fun h => hn h.symm), hmpf n, ← mpfMid_of_ne hn]
    rw [hstep]
    dsimp only
    refine ⟨by rw [markStepX_length, hlen1], ?_, hpr1⟩
    intro n
    rw [hpr1]
    rw [markStepX_eq M m hm (primesBelow (m + 1)) (st.mpf.set m m)
      (fun q hq => (mem_primesBelow.mp hq).2) (primesBelow_pairwise (m + 1))
      hlen1 (by rw [hmid m, mpfMid_self hm hmM]) n]
    by_cases hex : ∃ p, p ∈ primesBelow (m + 1) ∧ p ≤ m.minFac ∧ p * m < M ∧ n = p * m
    · rw [if_pos hex, markSpec_pos hm hex]
    · rw [if_neg hex, markSpec_neg hm hmM hex, hmid n]
  · have hb : ¬ st.mpf.getD m 0 = 0 := by
      rw [hread, if_neg hp]
      have := (Nat.minFac_prime (show m ≠ 1 by omega)).two_le
      omega
    have hstep : sieveStepX M st m =
        { mpf := markStepX M m st.primes st.mpf, primes := st.primes } := by
      unfold sieveStepX
      rw [if_neg hb]
    have hpr1 : st.primes = primesBelow (m + 1) := by
      rw [hpr, primesBelow_succ_comp hp]
    have hmid : ∀ n, st.mpf.getD n 0 = mpfMid M m n := by
      intro n
      by_cases hn : n = m
      · subst hn
        rw [hmpf n, mpfSpec_self hm hmM, if_neg hp, mpfMid_self hm hmM]
      · rw [hmpf n, ← mpfMid_of_ne hn]
    rw [hstep]
    dsimp only
    refine ⟨by rw [markStepX_length, hlen], ?_, hpr1⟩
    intro n
    rw [hpr1]
    rw [markStepX_eq M m hm (primesBelow (m + 1)) st.mpf
      (fun q hq => (mem_primesBelow.mp hq).2) (primesBelow_pairwise (m + 1))
      hlen (by rw [hmid m, mpfMid_self hm hmM]) n]
    by_cases hex : ∃ p, p ∈ primesBelow (m + 1) ∧ p ≤ m.minFac ∧ p * m < M ∧ n = p * m
    · rw [if_pos hex, markSpec_pos hm hex]
    · rw [if_neg hex, markSpec_neg hm hmM hex, hmid n]

theorem foldX_inv (M : Nat) :
    ∀ (k m : Nat) (st : SieveState), 2 ≤ m → m + k ≤ M →
      st.mpf.length = M →
      (∀ n, st.mpf.getD n 0 = mpfSpec M m n) →
      st.primes = primesBelow m →
      ((List.range' m k).foldl (sieveStepX M) st).mpf.length = M ∧
      (∀ n, ((List.range' m k).foldl (sieveStepX M) st).mpf.getD n 0 =
        mpfSpec M (m + k) n) ∧
      ((List.range' m k).foldl (sieveStepX M) st).primes = primesBelow (m + k) := by
  intro k
  induction k with
  | zero =>
    intro m st hm hmk hlen hmpf hpr
    have hnil : List.range' m 0 = [] := rfl
    rw [hnil, List.foldl_nil, Nat.add_zero]
    exact ⟨hlen, hmpf, hpr⟩
  | succ k ih =>
    intro m st hm hmk hlen hmpf hpr
    rw [List.range'_succ, List.foldl_cons]
    obtain ⟨hlen1, hmpf1, hpr1⟩ :=
      sieveStepX_inv M m hm (by omega) st hlen hmpf hpr
    have := ih (m + 1) (sieveStepX M st m) (by omega) (by omega) hlen1 hmpf1 hpr1
    have harith : m + 1 + k = m + (k + 1) := by omega
    rw [harith] at this
    exact this

theorem mpfSpec_final (M n : Nat) :
    mpfSpec M M n = if 2 ≤ n ∧ n < M then n.minFac else 0 := by
  unfold mpfSpec
  refine if_congr ?_ rfl rfl
  constructor
  · rintro ⟨h1, h2, -⟩
    exact ⟨h1, h2⟩
  · rintro ⟨h1, h2⟩
    exact ⟨h1, h2, Or.inl h2⟩

theorem mpfSpec_init (M n : Nat) : mpfSpec M 2 n = 0 := by
  unfold mpfSpec
  rw [if_neg]
  rintro ⟨h1, -, h | ⟨hnp, hc⟩⟩
  · omega
  · have := (cofactor_facts h1 hnp).1
    omega

theorem sieveRunX_correct (M : Nat) :
    (sieveRunX M (M - 2) (List.replicate M 0)).mpf.length = M ∧
    (∀ n, (sieveRunX M (M - 2) (List.replicate M 0)).mpf.getD n 0 =
      if 2 ≤ n ∧ n < M then n.minFac else 0) ∧
    (sieveRunX M (M - 2) (List.replicate M 0)).primes = primesBelow M := by
  unfold sieveRunX
  by_cases hM : M ≤ 2
  · have hk : M - 2 = 0 := by omega
    rw [hk]
    refine ⟨by simp, ?_, ?_⟩
    · intro n
      simp only [List.range', List.foldl_nil]
      rw [tblGet_replicate, if_neg (by omega)]
    · simp only [List.range', List.foldl_nil]
      rw [primesBelow_of_le_two hM]
  · have h2M : 2 + (M - 2) = M := by omega
    obtain ⟨h1, h2, h3⟩ := foldX_inv M (M - 2) 2 { mpf := List.replicate M 0, primes := [] }
      le_rfl (by omega) (by simp)
      (fun n => by rw [mpfSpec_init]; exact tblGet_replicate)
      (by rw [primesBelow_of_le_two le_rfl])
    rw [h2M] at h2 h3
    refine ⟨h1, fun n => ?_, h3⟩
    rw [h2 n, mpfSpec_final]

/-! ### Reduction of the sieve.h constructor to the exact kernel -/

theorem markStepE_eq_X (Uw M num : Nat) (hw : M * M ≤ 2 ^ Uw) (hnum : num < M) :
    ∀ (ps tbl : List Nat), (∀ p ∈ ps, p < M) →
      markStepE Uw M num ps tbl = markStepX M num ps tbl := by
  intro ps
  induction ps with
  | nil => intro tbl _; rfl
  | cons p rest ih =>
    intro tbl hps
    have hpM : p < M := hps p (List.mem_cons_self p rest)
    have hprod : p * num < 2 ^ Uw := lt_of_lt_of_le (Nat.mul_lt_mul'' hpM hnum) hw
    have hmod : p * num % 2 ^ Uw = p * num := Nat.mod_eq_of_lt hprod
    simp only [markStepE, markStepX, hmod]
    split
    · rfl
    · split
      · rfl
      · exact ih (tbl.set (p * num) p) (fun q hq => hps q (List.mem_cons_of_mem p hq))

theorem sieveStepX_primes_sub (M : Nat) (st : SieveState) (num : Nat) :
    (sieveStepX M st num).primes = st.primes ∨
    (sieveStepX M st num).primes = st.primes ++ [num] := by
  simp only [sieveStepX]
  split
  · exact Or.inr rfl
  · exact Or.inl rfl

theorem sieveStepX_primes_lt (M : Nat) (st : SieveState) (num : Nat) (hj : num < M)
    (hps : ∀ p ∈ st.primes, p < M) : ∀ p ∈ (sieveStepX M st num).primes, p < M := by
  rcases sieveStepX_primes_sub M st num with h | h <;> rw [h]
  · exact hps
  · intro p hp
    rcases List.mem_append.mp hp with h1 | h1
    · exact hps p h1
    · have : p = num := by simpa using h1
      omega

theorem sieveStepE_eq_X (Uw M : Nat) (hw : M * M ≤ 2 ^ Uw) (st : SieveState) (num : Nat)
    (hnum : num < M) (hps : ∀ p ∈ st.primes, p < M) :
    sieveStepE Uw M st num = sieveStepX M st num := by
  simp only [sieveStepE, sieveStepX]
  split
  · rw [markStepE_eq_X Uw M num hw hnum (st.primes ++ [num]) (st.mpf.set num num)]
    intro p hp
    rcases List.mem_append.mp hp with h1 | h1
    · exact hps p h1
    · have : p = num := by simpa using h1
      omega
  · rw [markStepE_eq_X Uw M num hw hnum st.primes st.mpf hps]

theorem foldE_eq_X (Uw M : Nat) (hw : M * M ≤ 2 ^ Uw) :
    ∀ (l : List Nat) (st : SieveState), (∀ j ∈ l, j < M) → (∀ p ∈ st.primes, p < M) →
      l.foldl (sieveStepE Uw M) st = l.foldl (sieveStepX M) st := by
  intro l
  induction l with
  | nil => intro st _ _; rfl
  | cons j rest ih =>
    intro st hl hps
    have hj : j < M := hl j (List.mem_cons_self j rest)
    rw [List.foldl_cons, List.foldl_cons, sieveStepE_eq_X Uw M hw st j hj hps]
    exact ih (sieveStepX M st j) (fun q hq => hl q (List.mem_cons_of_mem j hq))
      (sieveStepX_primes_lt M st j hj hps)

theorem sq_le_two_pow {L Uw : Nat} (h : bit_width L * 2 ≤ Uw) : L * L ≤ 2 ^ Uw := by
  have h1 : L < 2 ^ bit_width L := lt_two_pow_bit_width L
  have h2 : L * L < 2 ^ bit_width L * 2 ^ bit_width L := Nat.mul_lt_mul'' h1 h1
  have h3 : 2 ^ bit_width L * 2 ^ bit_width L = 2 ^ (bit_width L * 2) := by
    rw [← pow_add]
    congr 1
    omega
  calc L * L ≤ 2 ^ (bit_width L * 2) := by omega
    _ ≤ 2 ^ Uw := Nat.pow_le_pow_right (by omega) h

theorem eulerSieveE_eq (Uw L : Nat) (hchk : ¬ bit_width L * 2 > Uw) :
    eulerSieveE Uw L = some ⟨L, (sieveRunX L (L - 2) (List.replicate L 0)).mpf,
      (sieveRunX L (L - 2) (List.replicate L 0)).primes⟩ := by
  unfold eulerSieveE
  rw [if_neg hchk]
  unfold sieveRunX
  rw [foldE_eq_X Uw L (sq_le_two_pow (by omega)) (List.range' 2 (L - 2))
    { mpf := List.replicate L 0, primes := [] }
    (fun j hj => by rw [List.mem_range'_1] at hj; omega)
    (fun p hp => by simp at hp)]

theorem eulerSieveE_inv (Uw L : Nat) (s : EulerSieveE) (hs : eulerSieveE Uw L = some s) :
    s.limit = L ∧ s.mpf.length = L ∧
    (∀ n, s.mpf.getD n 0 = if 2 ≤ n ∧ n < L then n.minFac else 0) ∧
    s.primes = primesBelow L := by
  have hchk : ¬ bit_width L * 2 > Uw := by
    by_contra h
    unfold eulerSieveE at hs
    rw [if_pos h] at hs
    exact Option.noConfusion hs
  have he := eulerSieveE_eq Uw L hchk
  rw [hs] at he
  have hse := Option.some.inj he
  obtain ⟨h1, h2, h3⟩ := sieveRunX_correct L
  rw [hse]
  exact ⟨rfl, h1, fun n => h2 n, h3⟩

/-! ### Reduction of the prime.h constructor to the exact kernel -/

theorem markStepI_eq_X (L num : Nat) (hw : (L + 1) * (L + 1) ≤ 2 ^ 64)
    (hnum : num < L + 1) :
    ∀ (ps tbl : List Nat), (∀ p ∈ ps, p < L + 1) →
      markStepI L num ps tbl = markStepX (L + 1) num ps tbl := by
  intro ps
  induction ps with
  | nil => intro tbl _; rfl
  | cons p rest ih =>
    intro tbl hps
    have hpM : p < L + 1 := hps p (List.mem_cons_self p rest)
    have hprod : p * num < 2 ^ 64 := lt_of_lt_of_le (Nat.mul_lt_mul'' hpM hnum) hw
    have hmod : p * num % 2 ^ 64 = p * num := Nat.mod_eq_of_lt hprod
    have hcond : (p * num > L) = (p * num ≥ L + 1) := propext (by omega)
    simp only [markStepI, markStepX, hmod, hcond]
    split
    · rfl
    · split
      · rfl
      · exact ih (tbl.set (p * num) p) (fun q hq => hps q (List.mem_cons_of_mem p hq))

theorem sieveStepI_eq_X (L : Nat) (hw : (L + 1) * (L + 1) ≤ 2 ^ 64) (st : SieveState)
    (num : Nat) (hnum : num < L + 1) (hps : ∀ p ∈ st.primes, p < L + 1) :
    sieveStepI L st num = sieveStepX (L + 1) st num := by
  simp only [sieveStepI, sieveStepX]
  split
  · rw [markStepI_eq_X L num hw hnum (st.primes ++ [num]) (st.mpf.set num num)]
    intro p hp
    rcases List.mem_append.mp hp with h1 | h1
    · exact hps p h1
    · have : p = num := by simpa using h1
      omega
  · rw [markStepI_eq_X L num hw hnum st.primes st.mpf hps]

theorem foldI_eq_X (L : Nat) (hw : (L + 1) * (L + 1) ≤ 2 ^ 64) :
    ∀ (l : List Nat) (st : SieveState),
      (∀ j ∈ l, j < L + 1) → (∀ p ∈ st.primes, p < L + 1) →
      l.foldl (sieveStepI L) st = l.foldl (sieveStepX (L + 1)) st := by
  intro l
  induction l with
  | nil => intro st _ _; rfl
  | cons j rest ih =>
    intro st hl hps
    have hj : j < L + 1 := hl j (List.mem_cons_self j rest)
    rw [List.foldl_cons, List.foldl_cons, sieveStepI_eq_X L hw st j hj hps]
    exact ih (sieveStepX (L + 1) st j) (fun q hq => hl q (List.mem_cons_of_mem j hq))
      (sieveStepX_primes_lt (L + 1) st j hj hps)

theorem succ_sq_le_two_pow {L : Nat} (h : bit_width L * 2 ≤ 64) :
    (L + 1) * (L + 1) ≤ 2 ^ 64 := by
  have h1 : L < 2 ^ bit_width L := lt_two_pow_bit_width L
  have h3 : (L + 1) * (L + 1) ≤ 2 ^ bit_width L * 2 ^ bit_width L :=
    Nat.mul_le_mul h1 h1
  have h4 : 2 ^ bit_width L * 2 ^ bit_width L = 2 ^ (bit_width L * 2) := by
    rw [← pow_add]
    congr 1
    omega
  calc (L + 1) * (L + 1) ≤ 2 ^ (bit_width L * 2) := by omega
    _ ≤ 2 ^ 64 := Nat.pow_le_pow_right (by omega) h

theorem eulerSieveI_eq (L : Nat) (hchk : ¬ bit_width L * 2 > 64) :
    eulerSieveI L = some ⟨L, (sieveRunX (L + 1) (L - 1) (List.replicate (L + 1) 0)).mpf,
      (sieveRunX (L + 1) (L - 1) (List.replicate (L + 1) 0)).primes⟩ := by
  unfold eulerSieveI
  rw [if_neg hchk]
  unfold sieveRunX
  rw [foldI_eq_X L (succ_sq_le_two_pow (by omega)) (List.range' 2 (L - 1))
    { mpf := List.replicate (L + 1) 0, primes := [] }
    (fun j hj => by rw [List.mem_range'_1] at hj; omega)
    (fun p hp => by simp at hp)]

theorem eulerSieveI_inv (L : Nat) (s : EulerSieveI) (hs : eulerSieveI L = some s) :
    s.limit = L ∧ s.mpf.length = L + 1 ∧
    (∀ n, s.mpf.getD n 0 = if 2 ≤ n ∧ n ≤ L then n.minFac else 0) ∧
    s.primes = primesBelow (L + 1) := by
  have hchk : ¬ bit_width L * 2 > 64 := by
    by_contra h
    unfold eulerSieveI at hs
    rw [if_pos h] at hs
    exact Option.noConfusion hs
  have he := eulerSieveI_eq L hchk
  rw [hs] at he
  have hse := Option.some.inj he
  obtain ⟨h1, h2, h3⟩ := sieveRunX_correct (L + 1)
  have hk : L + 1 - 2 = L - 1 := by omega
  rw [hk] at h1 h2 h3
  rw [hse]
  refine ⟨rfl, h1, fun n => ?_, h3⟩
  rw [h2 n]
  exact if_congr (by omega) rfl rfl

/-! ### Facts about `modular_internal::normalize` and the `Modular` operations -/

theorem tmod_neg_dividend (x m : Int) : (-x).tmod m = -(x.tmod m) := by
  rw [Int.tmod_def, Int.tmod_def, Int.neg_tdiv]
  ring

theorem emod_unique {m r x : Int} (h0 : 0 ≤ r) (hm : r < m) (hdvd : m ∣ x - r) :
    x % m = r := by
  obtain ⟨c, hc⟩ := hdvd
  have hx : x = r + m * c := by omega
  rw [hx, Int.add_mul_emod_self_left]
  exact Int.emod_eq_of_lt h0 hm

theorem normalize_eq_emod (x m : Int) (hm : 0 < m) :
    modular_internal.normalize x m = x % m := by
  unfold modular_internal.normalize
  by_cases hin : x < 0 ∨ x ≥ m
  · rw [if_pos hin]
    show (if x.tmod m < 0 then x.tmod m + m else x.tmod m) = x % m
    have hub : x.tmod m < m := Int.tmod_lt_of_pos x hm
    have hlb : -m < x.tmod m := by
      rcases le_or_lt 0 x with hx | hx
      · have := Int.tmod_nonneg m hx
        omega
      · have h1 : (-x).tmod m < m := Int.tmod_lt_of_pos (-x) hm
        have h2 : (-x).tmod m = -(x.tmod m) := tmod_neg_dividend x m
        omega
    have h := Int.tdiv_add_tmod x m
    by_cases hneg : x.tmod m < 0
    · rw [if_pos hneg]
      refine (emod_unique (by omega) (by omega) ⟨x.tdiv m - 1, ?_⟩).symm
      rw [mul_sub]
      omega
    · rw [if_neg hneg]
      refine (emod_unique (by omega) hub ⟨x.tdiv m, by omega⟩).symm
  · rw [if_neg hin]
    push_neg at hin
    exact (Int.emod_eq_of_lt hin.1 hin.2).symm

theorem ofInt_val (m x : Int) (hm : 0 < m) : (Modular.ofInt m x).val = x % m := by
  unfold Modular.ofInt
  rw [normalize_eq_emod x m hm]

theorem emod_add_left' (m x y : Int) : (x % m + y) % m = (x + y) % m := by
  conv_lhs => rw [Int.add_emod]
  conv_rhs => rw [Int.add_emod]
  rw [Int.emod_emod_of_dvd x dvd_rfl]

theorem emod_add_right' (m x y : Int) : (x + y % m) % m = (x + y) % m := by
  conv_lhs => rw [Int.add_emod]
  conv_rhs => rw [Int.add_emod]
  rw [Int.emod_emod_of_dvd y dvd_rfl]

theorem emod_mul_right' (m x y : Int) : (x * (y % m)) % m = (x * y) % m := by
  conv_lhs => rw [Int.mul_emod]
  conv_rhs => rw [Int.mul_emod]
  rw [Int.emod_emod_of_dvd y dvd_rfl]

theorem Modular.add_val (m : Int) (hm : 0 < m) (a b : Modular m) :
    (a.add b).val = (a.val + b.val) % m := by
  unfold Modular.add
  show (Modular.ofInt m _).val = _
  rw [ofInt_val _ _ hm]
  by_cases hge : a.val + b.val ≥ m
  · rw [if_pos hge]
    have heq : a.val + b.val - m = a.val + b.val + m * (-1) := by ring
    rw [heq, Int.add_mul_emod_self_left]
  · rw [if_neg hge]

theorem Modular.negate_val (m : Int) (hm : 0 < m) (a : Modular m) :
    (a.negate).val = (-a.val) % m := by
  unfold Modular.negate
  by_cases h0 : a.val = 0
  · rw [if_pos h0, h0]
    simp
  · rw [if_neg h0, ofInt_val _ _ hm]
    have heq : m - a.val = -a.val + m * 1 := by ring
    rw [heq, Int.add_mul_emod_self_left]

theorem Modular.multiply_val (m : Int) (hm : 0 < m) (a b : Modular m) :
    (a.multiply b).val = (a.val * b.val) % m := by
  unfold Modular.multiply
  rw [ofInt_val _ _ hm]

theorem Modular.equal_iff {m : Int} (a b : Modular m) :
    a.equal b = true ↔ a.val = b.val := by
  unfold Modular.equal
  exact beq_iff_eq

/-! ### Bézout invariant of the `exgcd` loop -/

theorem numeric_cast_ok_eq {tw n m : Nat} (h : numeric_cast tw n = Except.ok m) :
    m = n := by
  unfold numeric_cast at h
  split at h
  · exact Except.noConfusion h
  · exact (Except.ok.inj h).symm

theorem exgcdLoop_spec (tw : Nat) (A B : Int) :
    ∀ (tb ta : Nat) (xa ya xb yb x y : Int),
      xa * A + ya * B = (ta : Int) → xb * A + yb * B = (tb : Int) →
      exgcdLoop tw ta tb xa ya xb yb = Except.ok (x, y) →
      x * A + y * B = (Nat.gcd ta tb : Int) := by
  intro tb
  induction tb using Nat.strong_induction_on with
  | _ tb ih =>
    intro ta xa ya xb yb x y ha hb hok
    by_cases h0 : tb = 0
    · subst h0
      rw [exgcdLoop, dif_pos rfl] at hok
      have hpair := Except.ok.inj hok
      rw [Prod.mk.injEq] at hpair
      obtain ⟨hx, hy⟩ := hpair
      subst hx; subst hy
      rw [Nat.gcd_zero_right]
      exact ha
    · rw [exgcdLoop, dif_neg h0] at hok
      simp only [] at hok
      split at hok
      · exact Except.noConfusion hok
      · have hq : ta / tb * tb ≤ ta := Nat.div_mul_le_self ta tb
        have hmod : ta - ta / tb * tb = ta % tb := by
          have := Nat.div_add_mod' ta tb
          omega
        have hlt : ta - ta / tb * tb < tb := by
          rw [hmod]
          exact Nat.mod_lt ta (Nat.pos_of_ne_zero h0)
        have hcast : ((ta - ta / tb * tb : Nat) : Int) =
            (ta : Int) - (ta / tb : Nat) * tb := by
          push_cast [Nat.cast_sub hq]
          ring
        have hc : (xa - ((ta / tb : Nat) : Int) * xb) * A +
            (ya - ((ta / tb : Nat) : Int) * yb) * B =
            ((ta - ta / tb * tb : Nat) : Int) := by
          rw [hcast]
          linear_combination ha - ((ta / tb : Nat) : Int) * hb
        have hrec := ih (ta - ta / tb * tb) hlt tb xb yb
          (xa - ((ta / tb : Nat) : Int) * xb) (ya - ((ta / tb : Nat) : Int) * yb)
          x y hb hc hok
        have hgcd : Nat.gcd tb (ta - ta / tb * tb) = Nat.gcd ta tb := by
          rw [hmod, Nat.gcd_comm tb (ta % tb), ← Nat.gcd_rec tb ta, Nat.gcd_comm]
        rw [← hgcd]
        exact hrec

theorem exgcdLoop_isOk (tw : Nat) :
    ∀ (tb ta : Nat) (xa ya xb yb : Int), ta < 2 ^ tw → tb < 2 ^ tw →
      ∃ p, exgcdLoop tw ta tb xa ya xb yb = Except.ok p := by
  intro tb
  induction tb using Nat.strong_induction_on with
  | _ tb ih =>
    intro ta xa ya xb yb hta htb
    by_cases h0 : tb = 0
    · subst h0
      exact ⟨(xa, ya), by rw [exgcdLoop, dif_pos rfl]⟩
    · have hq : ta / tb ≤ ta := Nat.div_le_self ta tb
      have hcast : numeric_cast tw (ta / tb) = Except.ok (ta / tb) := by
        unfold numeric_cast
        rw [if_neg (by omega)]
      have hlt : ta - ta / tb * tb < tb := by
        have h1 : ta / tb * tb + ta % tb = ta := Nat.div_add_mod' ta tb
        have h2 : ta % tb < tb := Nat.mod_lt ta (Nat.pos_of_ne_zero h0)
        omega
      obtain ⟨p, hp⟩ := ih (ta - ta / tb * tb) hlt tb xb yb
        (xa - ((ta / tb : Nat) : Int) * xb) (ya - ((ta / tb : Nat) : Int) * yb)
        htb (by omega)
      refine ⟨p, ?_⟩
      rw [exgcdLoop, dif_neg h0]
      simp only []
      rw [hcast]
      exact hp

theorem tqlSign_mul_self (a : Int) : tqlSign a * a = (a.natAbs : Int) := by
  unfold tqlSign
  by_cases h0 : a = 0
  · rw [if_pos h0, h0]
    simp
  · rw [if_neg h0]
    by_cases hpos : a > 0
    · rw [if_pos hpos, one_mul]
      exact (Int.natAbs_of_nonneg (by omega)).symm
    · rw [if_neg hpos]
      have h : ((-a).natAbs : Int) = -a := Int.natAbs_of_nonneg (by omega)
      rw [Int.natAbs_neg] at h
      omega

/-! ## Claim theorems -/

/-- C7 counterexample: the claim promises a Bézout pair for all inputs in the
representable domain of the instantiated type, but at `T = int` (`tw = 31`
value bits) the representable input `a = INT_MIN = -2^31`, `b = 1` makes the
first loop quotient `ta / tb = 2^31`, which `numeric_cast<int>` rejects:
`exgcd` throws `range_error` instead of returning a pair, even though
`gcd(-2^31, 1) = 1` exists. -/
theorem exgcd_overflow_counterexample :
    exgcd 31 (-(2 ^ 31)) 1 = Except.error RangeErr.rangeError ∧
      Int.gcd (-(2 ^ 31)) 1 = 1 := by
  constructor
  · have habs : unsigned_abs (-(2 ^ 31) : Int) = 2 ^ 31 := by
      norm_num [unsigned_abs]
    have habs1 : unsigned_abs (1 : Int) = 1 := rfl
    have hloop : exgcdLoop 31 (2 ^ 31) 1 1 0 0 1 =
        Except.error RangeErr.rangeError := by
      rw [exgcdLoop, dif_neg (by norm_num)]
      norm_num [numeric_cast]
    unfold exgcd
    rw [habs, habs1, hloop]
  · simp [Int.gcd]

/-- C7 (amended): for all integers `a`, `b` (with `tw` the number of value
bits of the signed type), whenever `exgcd(a, b)` returns normally with a pair
`(x, y)`, then `x*a + y*b == gcd(a, b)`; and it does return normally whenever
`|a| < 2^tw` and `|b| < 2^tw`, i.e. whenever both magnitudes are at most the
signed type's maximum.  (For larger representable magnitudes — the minimum
value of a signed type — the internal `numeric_cast` of a quotient can throw
`range_error`, see the counterexample.) -/
theorem exgcd_bezout_checked (tw : Nat) (a b : Int) :
    (∀ x y : Int, exgcd tw a b = Except.ok (x, y) →
      x * a + y * b = (Int.gcd a b : Int)) ∧
    (a.natAbs < 2 ^ tw → b.natAbs < 2 ^ tw →
      ∃ x y : Int, exgcd tw a b = Except.ok (x, y)) := by
  constructor
  · intro x y hok
    unfold exgcd at hok
    split at hok
    · exact Except.noConfusion hok
    · rename_i p hloop
      have hpair := Except.ok.inj hok
      rw [Prod.mk.injEq] at hpair
      obtain ⟨hx, hy⟩ := hpair
      subst hx; subst hy
      have hspec := exgcdLoop_spec tw ((a.natAbs : Int)) ((b.natAbs : Int))
        (unsigned_abs b) (unsigned_abs a) 1 0 0 1 p.1 p.2
        (by simp [unsigned_abs]) (by simp [unsigned_abs]) hloop
      calc tqlSign a * p.1 * a + tqlSign b * p.2 * b
          = p.1 * (tqlSign a * a) + p.2 * (tqlSign b * b) := by ring
        _ = p.1 * (a.natAbs : Int) + p.2 * (b.natAbs : Int) := by
            rw [tqlSign_mul_self, tqlSign_mul_self]
        _ = (Nat.gcd (unsigned_abs a) (unsigned_abs b) : Int) := hspec
        _ = (Int.gcd a b : Int) := rfl
  · intro hna hnb
    obtain ⟨p, hp⟩ := exgcdLoop_isOk tw (unsigned_abs b) (unsigned_abs a)
      1 0 0 1 hna hnb
    refine ⟨tqlSign a * p.1, tqlSign b * p.2, ?_⟩
    unfold exgcd
    rw [hp]

/-- Witness for the amended C7 theorem at `tw = 31`, `a = 6`, `b = -4`:
`exgcd` returns the pair `(1, 1)`, and `1*6 + 1*(-4) = 2 = gcd(6, -4)`;
both magnitude bounds `6 < 2^31` and `4 < 2^31` hold. -/
theorem exgcd_bezout_checked_witness :
    (1 : Int) * 6 + 1 * (-4) = (Int.gcd 6 (-4) : Int) ∧
      (∃ x y : Int, exgcd 31 6 (-4) = Except.ok (x, y)) := by
  have h3 : exgcdLoop 31 2 0 1 (-1) (-2) 3 = Except.ok ((1 : Int), (-1 : Int)) := by
    rw [exgcdLoop, dif_pos rfl]
  have h2 : exgcdLoop 31 4 2 0 1 1 (-1) = Except.ok ((1 : Int), (-1 : Int)) := by
    rw [exgcdLoop, dif_neg (by norm_num)]
    norm_num [numeric_cast, h3]
  have h1 : exgcdLoop 31 6 4 1 0 0 1 = Except.ok ((1 : Int), (-1 : Int)) := by
    rw [exgcdLoop, dif_neg (by norm_num)]
    norm_num [numeric_cast, h2]
  have hok : exgcd 31 6 (-4) = Except.ok ((1 : Int), (1 : Int)) := by
    have habs6 : unsigned_abs (6 : Int) = 6 := rfl
    have habs4 : unsigned_abs ((-4) : Int) = 4 := rfl
    unfold exgcd
    simp only [habs6, habs4, h1]
    norm_num [tqlSign]
  exact ⟨(exgcd_bezout_checked 31 6 (-4)).1 1 1 hok,
    (exgcd_bezout_checked 31 6 (-4)).2 (by norm_num) (by norm_num)⟩

/-- C2: for every positive modulus and every integer `x`, the `Modular`
constructor is total (it is a plain Lean function) and produces a value in
`[0, mod)` congruent to `x` modulo `mod`. -/
theorem modular_construct_total_normalized (m x : Int) (hm : 0 < m) :
    0 ≤ (Modular.ofInt m x).get ∧ (Modular.ofInt m x).get < m ∧
      Int.ModEq m ((Modular.ofInt m x).get) x := by
  have hv : (Modular.ofInt m x).get = x % m := ofInt_val m x hm
  refine ⟨?_, ?_, ?_⟩
  · rw [hv]
    exact Int.emod_nonneg x (by omega)
  · rw [hv]
    exact Int.emod_lt_of_pos x hm
  · show (Modular.ofInt m x).get % m = x % m
    rw [hv]
    exact Int.emod_emod_of_dvd x dvd_rfl

/-- C2 witness: concrete instances, including a negative input. -/
theorem modular_construct_total_normalized_witness :
    (Modular.ofInt 10 123).get = 3 ∧ (Modular.ofInt 10 (-4)).get = 6 ∧
    (0 ≤ (Modular.ofInt 10 123).get ∧ (Modular.ofInt 10 123).get < 10 ∧
      Int.ModEq 10 ((Modular.ofInt 10 123).get) 123) := by
  exact ⟨rfl, rfl, modular_construct_total_normalized 10 123 (by decide)⟩

/-- C3: commutativity and associativity of `add`, additive inverses via
`negate`, multiplicative identity, and `subtract` as `add` of the negation,
for all normalized ring elements. -/
theorem modular_ring_laws (m : Int) (hm : 0 < m) (a b c : Modular m)
    (ha : a.Inv) (hb : b.Inv) (hc : c.Inv) :
    (a.add b).equal (b.add a) = true ∧
    ((a.add b).add c).equal (a.add (b.add c)) = true ∧
    (a.add a.negate).equal (Modular.ofInt m 0) = true ∧
    (a.multiply (Modular.ofInt m 1)).equal a = true ∧
    (a.subtract b).equal (a.add b.negate) = true := by
  refine ⟨?_, ?_, ?_, ?_, ?_⟩
  · rw [Modular.equal_iff, Modular.add_val m hm, Modular.add_val m hm, Int.add_comm]
  · rw [Modular.equal_iff, Modular.add_val m hm, Modular.add_val m hm,
      Modular.add_val m hm, Modular.add_val m hm, emod_add_left', emod_add_right',
      Int.add_assoc]
  · rw [Modular.equal_iff, Modular.add_val m hm, Modular.negate_val m hm,
      ofInt_val m 0 hm, emod_add_right']
    have hz : a.val + -a.val = 0 := by ring
    rw [hz]
  · rw [Modular.equal_iff, Modular.multiply_val m hm, ofInt_val m 1 hm,
      emod_mul_right', mul_one]
    exact Int.emod_eq_of_lt ha.1 ha.2
  · rw [Modular.equal_iff]
    rfl

/-- C3 witness: a concrete ring instance. -/
theorem modular_ring_laws_witness :
    (((⟨3⟩ : Modular 10).add ⟨5⟩).equal ((⟨5⟩ : Modular 10).add ⟨3⟩) = true) ∧
    ((((⟨3⟩ : Modular 10).add ⟨5⟩).add ⟨7⟩).equal
      ((⟨3⟩ : Modular 10).add ((⟨5⟩ : Modular 10).add ⟨7⟩)) = true) ∧
    (((⟨3⟩ : Modular 10).add (Modular.negate ⟨3⟩)).equal (Modular.ofInt 10 0) = true) := by
  have h := modular_ring_laws 10 (by decide) ⟨3⟩ ⟨5⟩ ⟨7⟩ (by decide) (by decide) (by decide)
  exact ⟨h.1, h.2.1, h.2.2.1⟩

/-- C4: under the static width preconditions of `modular.h`
(`modulus_width + 1 <= type_width` for addition, `modulus_width * 2 <=
type_width` for multiplication), `add` and `multiply` compute the exact
mathematical results modulo `mod`, and the intermediate sum/product fits
below `2 ^ type_width`, so the value type never wraps around. -/
theorem modular_add_mul_exact_no_overflow (tw : Nat) (m : Int) (hm : 0 < m)
    (a b : Modular m) (ha : a.Inv) (hb : b.Inv) :
    (bit_width m.toNat + 1 ≤ tw →
      (a.add b).get = (a.get + b.get) % m ∧ a.get + b.get < 2 ^ tw) ∧
    (bit_width m.toNat * 2 ≤ tw →
      (a.multiply b).get = (a.get * b.get) % m ∧ a.get * b.get < 2 ^ tw) := by
  have hmw : m < 2 ^ bit_width m.toNat := by
    have h1 : m.toNat < 2 ^ bit_width m.toNat := lt_two_pow_bit_width m.toNat
    have h2 : ((m.toNat : Nat) : Int) = m := Int.toNat_of_nonneg (by omega)
    calc m = (m.toNat : Int) := h2.symm
      _ < ((2 ^ bit_width m.toNat : Nat) : Int) := by exact_mod_cast h1
      _ = 2 ^ bit_width m.toNat := by push_cast; ring
  obtain ⟨ha1, ha2⟩ := ha
  obtain ⟨hb1, hb2⟩ := hb
  constructor
  · intro htw
    refine ⟨Modular.add_val m hm a b, ?_⟩
    have hpow : (2 : Int) ^ (bit_width m.toNat + 1) ≤ 2 ^ tw :=
      pow_le_pow_right₀ (by omega) htw
    have hsum : a.val + b.val < 2 * m := by omega
    have h2m : (2 : Int) * m < 2 ^ (bit_width m.toNat + 1) := by
      rw [pow_succ]
      omega
    show a.val + b.val < 2 ^ tw
    omega
  · intro htw
    refine ⟨Modular.multiply_val m hm a b, ?_⟩
    have hpow : (2 : Int) ^ (bit_width m.toNat * 2) ≤ 2 ^ tw :=
      pow_le_pow_right₀ (by omega) htw
    have hmul : a.val * b.val < m * m := by nlinarith
    have hmm : m * m < 2 ^ (bit_width m.toNat * 2) := by
      have hsplit : (2 : Int) ^ (bit_width m.toNat * 2) =
          2 ^ bit_width m.toNat * 2 ^ bit_width m.toNat := by
        rw [← pow_add]
        congr 1
        omega
      rw [hsplit]
      nlinarith
    show a.val * b.val < 2 ^ tw
    omega

/-- C4 witness: a concrete width/modulus instance. -/
theorem modular_add_mul_exact_no_overflow_witness :
    (((⟨7⟩ : Modular 10).add ⟨9⟩).get = ((7 : Int) + 9) % 10 ∧ (7 : Int) + 9 < 2 ^ 31) ∧
    (((⟨7⟩ : Modular 10).multiply ⟨9⟩).get = ((7 : Int) * 9) % 10 ∧
      (7 : Int) * 9 < 2 ^ 31) := by
  have h := modular_add_mul_exact_no_overflow 31 10 (by decide) ⟨7⟩ ⟨9⟩
    (by decide) (by decide)
  exact ⟨h.1 (by decide), h.2 (by decide)⟩

/-- C1: for every successfully constructed sieve.h `EulerSieve` with limit `L`
and every `n` in `[2, L)`, the `min_prime_factor_` entry of `n` divides `n`,
is prime, and no smaller prime divides `n`; and `primes_` equals the
ascending list of all `n` in `[2, L)` whose entry is `n` itself. -/
theorem euler_sieve_excl_correct (Uw L : Nat) (s : EulerSieveE)
    (hs : eulerSieveE Uw L = some s) (n : Nat) (h2 : 2 ≤ n) (hL : n < L) :
    s.mpf.getD n 0 ∣ n ∧ (s.mpf.getD n 0).Prime ∧
    (∀ q, q.Prime → q ∣ n → s.mpf.getD n 0 ≤ q) ∧
    s.primes = (List.range L).filter
      (fun k => decide (2 ≤ k) && decide (s.mpf.getD k 0 = k)) ∧
    s.primes.Pairwise (· < ·) := by
  obtain ⟨hlim, hlen, hmpf, hpr⟩ := eulerSieveE_inv Uw L s hs
  have hv : s.mpf.getD n 0 = n.minFac := by rw [hmpf n, if_pos ⟨h2, hL⟩]
  refine ⟨?_, ?_, ?_, ?_, ?_⟩
  · rw [hv]
    exact Nat.minFac_dvd n
  · rw [hv]
    exact Nat.minFac_prime (by omega)
  · intro q hq hqd
    rw [hv]
    exact Nat.minFac_le_of_dvd hq.two_le hqd
  · rw [hpr]
    unfold primesBelow
    apply List.filter_congr
    intro k hk
    rw [List.mem_range] at hk
    by_cases h2k : 2 ≤ k
    · have hvk : s.mpf.getD k 0 = k.minFac := by rw [hmpf k, if_pos ⟨h2k, hk⟩]
      rw [hvk]
    · simp [h2k]
  · rw [hpr]
    exact primesBelow_pairwise L

/-- C1 witness: the sieve below 10. -/
theorem euler_sieve_excl_correct_witness :
    mpfOfE (eulerSieveE 64 10) 9 = 3 ∧
    mpfOfE (eulerSieveE 64 10) 9 ∣ 9 ∧ (mpfOfE (eulerSieveE 64 10) 9).Prime ∧
    primesOfE (eulerSieveE 64 10) = [2, 3, 5, 7] := by
  have e1 : mpfOfE (eulerSieveE 64 10) 9 = 3 := rfl
  have e2 : primesOfE (eulerSieveE 64 10) = [2, 3, 5, 7] := rfl
  rcases h : eulerSieveE 64 10 with - | s
  · rw [h] at e1
    exact absurd e1 (by simp [mpfOfE])
  · rw [h] at e1 e2
    obtain ⟨hdvd, hprime, hmin, hflt, hsort⟩ :=
      euler_sieve_excl_correct 64 10 s h 9 (by omega) (by omega)
    exact ⟨e1, hdvd, hprime, e2⟩

/-- C5: for every successfully constructed sieve.h `EulerSieve` with limit
`L`, `min_prime_factor(number)` fails with a domain error exactly when
`abs(number) <= 1`, fails with an out-of-range error exactly when
`1 < abs(number)` and `abs(number) >= L`, and otherwise returns the smallest
prime factor of `abs(number)`. -/
theorem min_prime_factor_error_spec (Uw L : Nat) (s : EulerSieveE)
    (hs : eulerSieveE Uw L = some s) (number : Int) :
    (s.min_prime_factor number = Except.error SieveErr.domainError ↔
      number.natAbs ≤ 1) ∧
    (s.min_prime_factor number = Except.error SieveErr.outOfRange ↔
      1 < number.natAbs ∧ L ≤ number.natAbs) ∧
    (2 ≤ number.natAbs → number.natAbs < L →
      s.min_prime_factor number = Except.ok number.natAbs.minFac ∧
      number.natAbs.minFac ∣ number.natAbs ∧ (number.natAbs.minFac).Prime ∧
      (∀ q, q.Prime → q ∣ number.natAbs → number.natAbs.minFac ≤ q)) := by
  obtain ⟨hlim, hlen, hmpf, hpr⟩ := eulerSieveE_inv Uw L s hs
  unfold EulerSieveE.min_prime_factor unsigned_abs
  rw [hlim]
  by_cases h1 : number.natAbs ≤ 1
  · rw [if_pos h1]
    refine ⟨by simp [h1], ?_, ?_⟩
    · constructor
      · intro hcontra
        exact absurd hcontra (by simp)
      · rintro ⟨h2, -⟩
        omega
    · intro h2 _
      omega
  · rw [if_neg h1]
    by_cases h2 : number.natAbs ≥ L
    · rw [if_pos h2]
      refine ⟨?_, ?_, ?_⟩
      · constructor
        · intro hcontra
          exact absurd hcontra (by simp)
        · intro hcontra
          omega
      · constructor
        · intro _
          exact ⟨by omega, h2⟩
        · intro _
          rfl
      · intro h3 h4
        omega
    · rw [if_neg h2]
      refine ⟨?_, ?_, ?_⟩
      · constructor
        · intro hcontra
          exact absurd hcontra (by simp)
        · intro hcontra
          omega
      · constructor
        · intro hcontra
          exact absurd hcontra (by simp)
        · rintro ⟨-, hge⟩
          omega
      · intro h3 h4
        have hv : s.mpf.getD number.natAbs 0 = number.natAbs.minFac := by
          rw [hmpf number.natAbs, if_pos ⟨h3, by omega⟩]
        refine ⟨by rw [hv], ?_, ?_, ?_⟩
        · exact Nat.minFac_dvd number.natAbs
        · exact Nat.minFac_prime (by omega)
        · intro q hq hqd
          exact Nat.minFac_le_of_dvd hq.two_le hqd

/-- C5 witness: a negative in-range query, a domain error and an
out-of-range error, on the sieve below 10. -/
theorem min_prime_factor_error_spec_witness :
    queryE (eulerSieveE 64 10) 0 = Except.error SieveErr.domainError ∧
    queryE (eulerSieveE 64 10) 11 = Except.error SieveErr.outOfRange ∧
    queryE (eulerSieveE 64 10) (-9) = Except.ok 3 ∧ Nat.minFac 9 = 3 := by
  have e0 : queryE (eulerSieveE 64 10) (-9) = Except.ok 3 := rfl
  rcases h : eulerSieveE 64 10 with - | s
  · rw [h] at e0
    exact absurd e0 (by simp [queryE])
  · rw [h] at e0
    refine ⟨?_, ?_, e0, ?_⟩
    · exact (min_prime_factor_error_spec 64 10 s h 0).1.mpr (by decide)
    · exact (min_prime_factor_error_spec 64 10 s h 11).2.1.mpr (by decide)
    · have hok := ((min_prime_factor_error_spec 64 10 s h (-9)).2.2
        (by decide) (by decide)).1
      have e1 : s.min_prime_factor (-9) = Except.ok 3 := e0
      rw [hok] at e1
      exact (Except.ok.inj e1).symm

/-- C6: the sieve.h `EulerSieve` constructor fails with an overflow error
exactly when `bit_width(limit) * 2 > bit_width(U)`; the check runs before any
sieving, and on success the instance is fully built (correct prime list and
factor table), so there is no usable partially-built state. -/
theorem euler_sieve_overflow_check (Uw L : Nat) :
    (eulerSieveE Uw L = none ↔ Uw < bit_width L * 2) ∧
    (∀ s : EulerSieveE, eulerSieveE Uw L = some s →
      s.limit = L ∧ s.primes = primesBelow L ∧
      ∀ n, 2 ≤ n → n < L → s.mpf.getD n 0 = n.minFac) := by
  constructor
  · unfold eulerSieveE
    by_cases h : bit_width L * 2 > Uw
    · rw [if_pos h]
      exact iff_of_true rfl h
    · rw [if_neg h]
      constructor
      · intro hcontra
        exact Option.noConfusion hcontra
      · intro hcontra
        omega
  · intro s hs
    obtain ⟨h1, h2, h3, h4⟩ := eulerSieveE_inv Uw L s hs
    exact ⟨h1, h4, fun n hn hnL => by rw [h3 n, if_pos ⟨hn, hnL⟩]⟩

/-- C6 witness: a width too small for the limit fails, a sufficient width
fully builds the sieve. -/
theorem euler_sieve_overflow_check_witness :
    eulerSieveE 8 100 = none ∧ (8 : Nat) < bit_width 100 * 2 ∧
    primesOfE (eulerSieveE 64 10) = [2, 3, 5, 7] ∧
    mpfOfE (eulerSieveE 64 10) 9 = 3 := by
  exact ⟨(euler_sieve_overflow_check 8 100).1.mpr (by decide), by decide, rfl, rfl⟩

/-- C8: the prime.h `EulerSieve` constructed with 97 (inclusive limit) yields
exactly the 25 primes up to and including 97, in ascending order, and
`min_prime_factor(15) == 3`. -/
theorem euler_sieve_97_concrete :
    primesOfI (eulerSieveI 97) = [2, 3, 5, 7, 11, 13, 17, 19, 23, 29, 31, 37, 41,
      43, 47, 53, 59, 61, 67, 71, 73, 79, 83, 89, 97] ∧
    (primesOfI (eulerSieveI 97)).length = 25 ∧
    queryI (eulerSieveI 97) 15 = Except.ok 3 := by
  refine ⟨rfl, rfl, rfl⟩

/-- C10: the inclusive-limit `EulerSieve` of prime.h at limit `L` and the
exclusive-limit `EulerSieve` of sieve.h at limit `L + 1` agree: when both
constructions succeed they produce identical prime lists, and their
`min_prime_factor` results agree for every number whose absolute value lies
in `[2, L]`. -/
theorem sieve_revisions_agree (Uw L : Nat) (sI : EulerSieveI) (sE : EulerSieveE)
    (hI : eulerSieveI L = some sI) (hE : eulerSieveE Uw (L + 1) = some sE) :
    sI.primes = sE.primes ∧
    (∀ number : Int, 2 ≤ number.natAbs → number.natAbs ≤ L →
      sI.min_prime_factor number = sE.min_prime_factor number) := by
  obtain ⟨hI1, hI2, hI3, hI4⟩ := eulerSieveI_inv L sI hI
  obtain ⟨hE1, hE2, hE3, hE4⟩ := eulerSieveE_inv Uw (L + 1) sE hE
  refine ⟨by rw [hI4, hE4], ?_⟩
  intro number h2 hL
  unfold EulerSieveI.min_prime_factor EulerSieveE.min_prime_factor unsigned_abs
  rw [hI1, hE1]
  simp only [if_neg (show ¬ number.natAbs ≤ 1 by omega),
    if_neg (show ¬ number.natAbs > L by omega),
    if_neg (show ¬ number.natAbs ≥ L + 1 by omega)]
  rw [hI3 number.natAbs, hE3 number.natAbs, if_pos ⟨h2, hL⟩,
    if_pos ⟨h2, by omega⟩]

/-- C10 witness: the two revisions at inclusive limit 10 and exclusive limit
11. -/
theorem sieve_revisions_agree_witness :
    primesOfI (eulerSieveI 10) = primesOfE (eulerSieveE 64 11) ∧
    queryI (eulerSieveI 10) (-9) = queryE (eulerSieveE 64 11) (-9) ∧
    primesOfI (eulerSieveI 10) = [2, 3, 5, 7] := by
  have eIs : (eulerSieveI 10).isSome = true := rfl
  have eEs : (eulerSieveE 64 11).isSome = true := rfl
  have e3 : primesOfI (eulerSieveI 10) = [2, 3, 5, 7] := rfl
  rcases hI : eulerSieveI 10 with - | sI
  · rw [hI] at eIs
    exact absurd eIs (by simp)
  rcases hE : eulerSieveE 64 11 with - | sE
  · rw [hE] at eEs
    exact absurd eEs (by simp)
  rw [hI] at e3
  obtain ⟨hp, hq⟩ := sieve_revisions_agree 64 10 sI sE hI hE
  have h9 := hq (-9) (by decide) (by decide)
  refine ⟨hp, ?_, e3⟩
  show sI.min_prime_factor (-9) = sE.min_prime_factor (-9)
  exact h9

/-- C9 counterexample: a negative root index is signaled with
`invalid_argument`, not with a domain error, so the claim that `iroot` fails
with a domain error for all `n <= 0` is false at `(x, n) = (5, -1)`. -/
theorem iroot_neg_index_counterexample :
    iroot 5 (-1) = Except.error IrootErr.invalidArgument ∧
    iroot 5 (-1) ≠ Except.error IrootErr.domainError := by
  constructor
  · rfl
  · intro hcontra
    rw [show iroot 5 (-1) = Except.error IrootErr.invalidArgument from rfl] at hcontra
    exact IrootErr.noConfusion (Except.error.inj hcontra)

/-- C9 amended: `iroot` fails with an invalid-argument error for `n < 0`,
with a domain error for `n == 0`, and with a domain error for an even root
(`n > 0` even) of a negative `x`; in every other case it succeeds. -/
theorem iroot_error_spec (x n : Int) :
    (n < 0 → iroot x n = Except.error IrootErr.invalidArgument) ∧
    (n = 0 → iroot x n = Except.error IrootErr.domainError) ∧
    (0 < n → n % 2 = 0 → x < 0 → iroot x n = Except.error IrootErr.domainError) ∧
    (0 < n → (0 ≤ x ∨ n % 2 = 1) → ∃ r, iroot x n = Except.ok r) := by
  refine ⟨?_, ?_, ?_, ?_⟩
  · intro h
    unfold iroot
    rw [if_pos h]
  · intro h
    unfold iroot
    rw [if_neg (by omega), if_pos h]
  · intro h1 h2 h3
    unfold iroot
    rw [if_neg (by omega), if_neg (by omega), if_pos ⟨h3, h2⟩]
  · intro h1 h2
    have hc : ¬ (x < 0 ∧ n % 2 = 0) := by
      rintro ⟨hx, hev⟩
      rcases h2 with h | h <;> omega
    unfold iroot
    rw [if_neg (by omega), if_neg (by omega), if_neg hc]
    by_cases hn1 : n = 1
    · rw [if_pos hn1]
      exact ⟨x, rfl⟩
    · rw [if_neg hn1]
      exact ⟨_, rfl⟩

/-- C9 witness: each error path of the amended claim at a concrete input. -/
theorem iroot_error_spec_witness :
    iroot 7 (-2) = Except.error IrootErr.invalidArgument ∧
    iroot 7 0 = Except.error IrootErr.domainError ∧
    iroot (-5) 2 = Except.error IrootErr.domainError := by
  exact ⟨(iroot_error_spec 7 (-2)).1 (by decide),
    (iroot_error_spec 7 0).2.1 rfl,
    (iroot_error_spec (-5) 2).2.2.1 (by decide) (by decide) (by decide)⟩
